import Mathlib

/-!
Verification of the tag-aware text splitter and document helpers of
`htmlDoc.py` against its specification.  Python strings are modelled as
`List Char`, Python integers as `Int` (with Python slice semantics made
explicit), and the stateful parser callbacks as a pure tokenizer that
returns the token list the `MyHTMLParser` instance would have collected.
-/

namespace HtmlDoc

/-! ## Python primitives -/

/-- Clamp of one endpoint of a Python slice `s[a:b]`: a negative index counts
from the end of the list, and both endpoints are clamped into `[0, n]`. -/
def pyClamp (n : Nat) (i : Int) : Nat :=
  if i < 0 then ((n : Int) + i).toNat else min i.toNat n

/-- Python slice `s[a:b]`: the elements with indices `pyClamp n a ≤ k < pyClamp n b`. -/
def pySlice (s : List Char) (a b : Int) : List Char :=
  (s.take (pyClamp s.length b)).drop (pyClamp s.length a)

/-- Python slice `l[0:k]` on a generic list (used for `lines[0 : start[0] - 1]`). -/
def pyTakeL {α : Type} (l : List α) (k : Int) : List α :=
  if k < 0 then l.take ((l.length : Int) + k).toNat else l.take k.toNat

/-- Python `text.split('\n')`: the newline-separated pieces, keeping empty
pieces, so the result is never empty (`"".split('\n') == [""]`). -/
def splitNL : List Char → List (List Char)
  | [] => [[]]
  | c :: rest =>
    if c = '\n' then [] :: splitNL rest
    else
      match splitNL rest with
      | [] => [[c]]
      | l :: ls => (c :: l) :: ls

/-- ASCII lowercasing of one character, as Python `str.lower()` acts on the
ASCII tag names produced by the scanner. -/
def lowerChar : Char → Char
  | 'A' => 'a' | 'B' => 'b' | 'C' => 'c' | 'D' => 'd' | 'E' => 'e' | 'F' => 'f'
  | 'G' => 'g' | 'H' => 'h' | 'I' => 'i' | 'J' => 'j' | 'K' => 'k' | 'L' => 'l'
  | 'M' => 'm' | 'N' => 'n' | 'O' => 'o' | 'P' => 'p' | 'Q' => 'q' | 'R' => 'r'
  | 'S' => 's' | 'T' => 't' | 'U' => 'u' | 'V' => 'v' | 'W' => 'w' | 'X' => 'x'
  | 'Y' => 'y' | 'Z' => 'z'
  | c => c

/-! ## Tokenizer

Model of the scanning primitive the splitter builds on: Python's
`html.parser.HTMLParser` (with the default `convert_charrefs=True`), as
subclassed by `MyHTMLParser` inside `spitTags` (`htmlDoc.py:328-349`).  The
subclass records, for every `handle_starttag`, `handle_endtag` and
`handle_data` callback, the tag name (or data chunk), the `getpos()` value
— a 1-based line number and 0-based column — current at the callback, and
the token kind.  The model reproduces the stdlib parser's behaviour on the
plain-tag fragment of HTML: start tags `<name ...>` (name lowercased, an
XHTML-style `<name .../>` firing both a start and an end callback at the
same position), end tags `</name>`, `<!...>`/`<?...>`/`</`+non-letter
constructs consumed silently up to the next `>`, a `<` not opening any
construct passed through as its own data chunk, data runs between
constructs reported at their starting position, and an unterminated
construct at end of input buffered forever (the code never calls
`close()`), hence reported as nothing.  Not modelled (outside every claim
and every input exercised here): character-reference decoding inside data,
`>` inside quoted attribute values, comment terminators beyond the first
`>`, whitespace between `</` and an end-tag name, and the CDATA content
mode of `<script>`/`<style>`. -/

/-- Kind of a recorded token: `.start`, `.stop` and `.data` stand for the
source's `"start"`, `"end"` and `"data"` type strings. -/
inductive TokKind
  | start
  | stop
  | data
deriving DecidableEq, Repr

/-- One recorded callback: item (tag name or data chunk), 1-based line,
0-based column, and kind — an entry of the parser's three parallel lists. -/
structure RawTok where
  item : List Char
  line : Nat
  col : Nat
  kind : TokKind
deriving DecidableEq, Repr

/-- Advance a `(line, column)` position over one character, as the stdlib
parser's `updatepos` does over each consumed chunk. -/
def stepPos (p : Nat × Nat) (c : Char) : Nat × Nat :=
  if c = '\n' then (p.1 + 1, 0) else (p.1, p.2 + 1)

/-- Position after consuming a whole chunk. -/
def advance (p : Nat × Nat) (s : List Char) : Nat × Nat :=
  s.foldl stepPos p

/-- The `getpos()` value after consuming the prefix `done` of the input:
line and column start at `(1, 0)`. -/
def lcOf (done : List Char) : Nat × Nat :=
  advance (1, 0) done

/-- First character of a tag name: a letter (the scanner's `[a-zA-Z]`). -/
def isNameStart (c : Char) : Bool :=
  ('a' ≤ c ∧ c ≤ 'z') ∨ ('A' ≤ c ∧ c ≤ 'Z')

/-- Continuation character of a tag name: anything but the terminators in
the scanner's tolerant tag-name pattern `[^\t\n\r\f />\x00]`. -/
def isNameChar (c : Char) : Bool :=
  ¬ (c = '\t' ∨ c = '\n' ∨ c = '\r' ∨ c = '\x0c' ∨ c = ' ' ∨ c = '/' ∨ c = '>'
     ∨ c = '\x00')

/-- State of the scanner between two characters. -/
inductive TkState
  | ground
  | inData (startLC : Nat × Nat) (run : List Char)
  | seenLt (ltLC : Nat × Nat)
  | seenLtSlash (ltLC : Nat × Nat)
  | bogus
  | inStart (ltLC : Nat × Nat) (name : List Char) (nameDone : Bool) (lastSlash : Bool)
  | inEnd (ltLC : Nat × Nat) (name : List Char) (nameDone : Bool)

/-- One scanner step: consume the character `c`, which sits at position
`lc`, and return the next state together with the tokens reported now. -/
def tkStep (st : TkState) (lc : Nat × Nat) (c : Char) : TkState × List RawTok :=
  match st with
  | .ground =>
    if c = '<' then (.seenLt lc, []) else (.inData lc [c], [])
  | .inData s run =>
    if c = '<' then (.seenLt lc, [⟨run, s.1, s.2, .data⟩])
    else (.inData s (run ++ [c]), [])
  | .seenLt l =>
    if isNameStart c then (.inStart l [c] false false, [])
    else if c = '/' then (.seenLtSlash l, [])
    else if c = '!' ∨ c = '?' then (.bogus, [])
    else if c = '<' then (.seenLt lc, [⟨['<'], l.1, l.2, .data⟩])
    else (.inData lc [c], [⟨['<'], l.1, l.2, .data⟩])
  | .seenLtSlash l =>
    if isNameStart c then (.inEnd l [c] false, [])
    else if c = '>' then (.ground, [])
    else (.bogus, [])
  | .bogus =>
    if c = '>' then (.ground, []) else (.bogus, [])
  | .inStart l name nameDone lastSlash =>
    if c = '>' then
      (.ground,
        ⟨name.map lowerChar, l.1, l.2, .start⟩ ::
          if lastSlash then [⟨name.map lowerChar, l.1, l.2, .stop⟩] else [])
    else if ¬ nameDone ∧ isNameChar c then
      (.inStart l (name ++ [c]) false (c = '/'), [])
    else
      (.inStart l name true (c = '/'), [])
  | .inEnd l name nameDone =>
    if c = '>' then (.ground, [⟨name.map lowerChar, l.1, l.2, .stop⟩])
    else if ¬ nameDone ∧ isNameChar c then (.inEnd l (name ++ [c]) false, [])
    else (.inEnd l name true, [])

/-- End of input: a pending data run is reported (the stdlib parser flushes
it on `feed` when it cannot be a split character reference); a pending tag
construct stays buffered and is never reported. -/
def tkFlush : TkState → List RawTok
  | .inData s run => [⟨run, s.1, s.2, .data⟩]
  | _ => []

/-- Run the scanner over the rest of the input from state `st` at position `lc`. -/
def tkRun (st : TkState) (lc : Nat × Nat) : List Char → List RawTok
  | [] => tkFlush st
  | c :: rest =>
    let p := tkStep st lc c
    p.2 ++ tkRun p.1 (stepPos lc c) rest

/-- All tokens `MyHTMLParser` records for the input (`parser.feed(text)`). -/
def tokenize (text : List Char) : List RawTok :=
  tkRun .ground (1, 0) text

/-! ## Splitter (`spitTags`, `htmlDoc.py:325-415`) -/

/-- Errors the Python code can raise on the paths modelled here:
`.indexError` for an out-of-range list access, `.valueError` for the
explicit `raise ValueError(...)` in `paragraph`. -/
inductive PyErr
  | indexError
  | valueError
deriving DecidableEq, Repr

/-- Line/column-to-offset conversion of `htmlDoc.py:352-356`: with
`lines = text.split('\n')`, the position `(line, col)` is mapped to
`sum(len(x) - 1 for x in lines[0 : line - 1]) + 2 * (line - 1) + col`,
computed in Python integers. -/
def conv (text : List Char) (line col : Int) : Int :=
  (((pyTakeL (splitNL text) (line - 1)).map (fun x => (x.length : Int) - 1)).sum)
    + 2 * (line - 1) + col

/-- A token after position conversion: item, absolute offset, kind. -/
structure Tok where
  item : List Char
  pos : Int
  kind : TokKind
deriving DecidableEq, Repr

/-- Kind of an output segment: `.text` and `.tag` stand for the source's
`'text'` and `'tag'` entries of `subTypes`. -/
inductive SegKind
  | text
  | tag
deriving DecidableEq, Repr

/-- One output segment, holding one entry of each of the four parallel
lists `subTexts`, `subTypes`, `subStartInds`, `subEndInds`. -/
structure Seg where
  content : List Char
  kind : SegKind
  startI : Int
  endI : Int
deriving DecidableEq, Repr

/-- The fixed self-closing tag set (`htmlDoc.py:5-6`). -/
def selfClosingTags : List (List Char) :=
  (["area", "base", "br", "col", "embed", "hr", "img", "input", "link",
    "meta", "param", "source", "track", "wbr"]).map String.data

/-- The leading/gap text-segment step (`htmlDoc.py:368-379`), run when a
whitelisted start tag is found at offset `pos`.  With no segment emitted
yet, text before the tag becomes a leading `text` segment — but if the tag
sits at offset 0 the `elif` evaluates `subEndInds[-1]` on an empty list
and raises `IndexError`.  Otherwise a `text` segment is emitted exactly
when there is a gap after the last segment (`subEndInds[-1]`, the `endI`
of the last emitted segment). -/
def gapStep (text : List Char) (pos : Int) (acc : List Seg) :
    Except PyErr (List Seg) :=
  match acc.getLast? with
  | none =>
    if pos > 0 then
      .ok (acc ++ [⟨pySlice text 0 pos, .text, 0, pos - 1⟩])
    else
      .error .indexError
  | some s =>
    if s.endI = pos - 1 then .ok acc
    else .ok (acc ++ [⟨pySlice text (s.endI + 1) pos, .text, s.endI + 1, pos - 1⟩])

/-- Scan forward for the first end token with the given tag name
(`htmlDoc.py:396-398`) and return the tokens after it; `none` when the
scan runs past the end of the token list, where Python raises
`IndexError`. -/
def findEnd (name : List Char) : List Tok → Option (List Tok)
  | [] => none
  | t :: rest => if t.item = name ∧ t.kind = .stop then some rest else findEnd name rest

/-- End offset of an emitted markup segment: the start offset of the next
token, or the length of the whole string when there is none
(`htmlDoc.py:384-387` and `399-402`). -/
def nextPos (text : List Char) (rest : List Tok) : Int :=
  match rest.head? with
  | some t => t.pos
  | none => (text.length : Int)

/-- The `while iii < len(foundItem)` loop of `htmlDoc.py:366-407`, with the
accumulated segments standing for the four parallel result lists.  `fuel`
bounds the recursion; every iteration consumes at least one token, so
`toks.length` fuel is always enough (`spitTagsSegs` supplies it). -/
def spitLoop (text : List Char) (tags : List (List Char)) :
    Nat → List Tok → List Seg → Except PyErr (List Seg)
  | _, [], acc => .ok acc
  | 0, _ :: _, acc => .ok acc
  | fuel + 1, t :: rest, acc =>
    if t.kind = .start ∧ t.item ∈ tags then
      match gapStep text t.pos acc with
      | .error e => .error e
      | .ok acc₁ =>
        if t.item ∈ selfClosingTags then
          let endInd := nextPos text rest
          spitLoop text tags fuel rest
            (acc₁ ++ [⟨pySlice text t.pos endInd, .tag, t.pos, endInd - 1⟩])
        else
          match findEnd t.item rest with
          | none => .error .indexError
          | some after =>
            let endInd := nextPos text after
            spitLoop text tags fuel after
              (acc₁ ++ [⟨pySlice text t.pos endInd, .tag, t.pos, endInd - 1⟩])
    else
      spitLoop text tags fuel rest acc

/-- Trailing-text step (`htmlDoc.py:409-413`): when at least one segment
was emitted and the last one ends before the last character, the
remainder becomes a final `text` segment. -/
def addTrailing (text : List Char) (acc : List Seg) : List Seg :=
  match acc.getLast? with
  | none => acc
  | some s =>
    if s.endI < (text.length : Int) - 1 then
      acc ++ [⟨pySlice text (s.endI + 1) (text.length : Int), .text, s.endI + 1,
              (text.length : Int) - 1⟩]
    else acc

/-- The token list the splitter works on: tokenize, then convert each
`(line, col)` to an absolute offset (`htmlDoc.py:350-356`). -/
def spitToks (text : List Char) : List Tok :=
  (tokenize text).map
    (fun r => (⟨r.item, conv text (r.line : Int) (r.col : Int), r.kind⟩ : Tok))

/-- The segments `spitTags` computes: run the main loop on the converted
tokens, then add the trailing text segment. -/
def spitTagsSegs (text : List Char) (tags : List (List Char)) :
    Except PyErr (List Seg) :=
  (spitLoop text tags (spitToks text).length (spitToks text) []).map (addTrailing text)

/-- The value `spitTags` returns: the pair of `subTexts` and `subTypes`
(`htmlDoc.py:415`), with `SegKind` standing for the `'text'`/`'tag'`
strings. -/
def spitTags (text : List Char) (tags : List (List Char)) :
    Except PyErr (List (List Char) × List SegKind) :=
  (spitTagsSegs text tags).map (fun segs => (segs.map Seg.content, segs.map Seg.kind))

/-! ## Rendering helpers

Model of the `yattag` calls the module makes: `text(...)` escapes `&`,
`<` and `>`; attributse are rendered as ` name="value"` with the value
escaped; `doc.asis(...)` appends verbatim.  Indentation
(`yattag.indent` with `indent_text=False`, the only claim-relevant
configuration) is modelled as the identity. -/

/-- Escaping applied by yattag `text(...)` to body text. -/
def htmlEscape (s : List Char) : List Char :=
  s.flatMap fun c =>
    if c = '&' then ("&amp;").data
    else if c = '<' then ("&lt;").data
    else if c = '>' then ("&gt;").data
    else [c]

/-- Escaping applied to attribute values (additionally quotes `"`). -/
def attrEscape (s : List Char) : List Char :=
  s.flatMap fun c =>
    if c = '&' then ("&amp;").data
    else if c = '<' then ("&lt;").data
    else if c = '>' then ("&gt;").data
    else if c = '"' then ("&quot;").data
    else [c]

/-- Render an attribute list as ` name="value"` pairs. -/
def renderAttrs (atr : List (List Char × List Char)) : List Char :=
  atr.flatMap fun nv => ' ' :: (nv.1 ++ '=' :: '"' :: (attrEscape nv.2 ++ ['"']))

/-! ## `paragraph` (`htmlDoc.py:275-322`) -/

/-- The default `keepTags` whitelist of `paragraph` (`htmlDoc.py:276-283`),
including the `'SVG svg'` entry. -/
def keepTags : List (List Char) :=
  (["a", "abbr", "area", "audio", "b", "bdi", "bdo", "br",
    "button", "canvas", "cite", "code", "data", "datalist",
    "del", "dfn", "em", "embed", "i", "iframe", "img", "input",
    "ins", "kbd", "label", "link", "map", "mark", "math", "meta",
    "meter", "noscript", "object", "output", "picture", "progress",
    "q", "ruby", "s", "samp", "script", "select", "slot", "small",
    "span", "strong", "sub", "sup", "SVG svg", "template", "text",
    "textarea", "time", "u", "var", "video", "wbr"]).map String.data

/-- Body of a rendered paragraph: each `text` piece escaped, each `tag`
piece emitted verbatim (`htmlDoc.py:310-315`). -/
def renderPieces (pieces : List (List Char) × List SegKind) : List Char :=
  (pieces.1.zip pieces.2).flatMap fun p =>
    match p.2 with
    | .text => htmlEscape p.1
    | .tag => p.1

/-- The `paragraph` function (`htmlDoc.py:275-322`), parameterized by the
splitter it calls so that the configuration check can be stated as
happening before any scanning: when both mode flags are set the
`ValueError` is raised first and `split` is never invoked. -/
def paragraphWith
    (split : List Char → List (List Char) →
      Except PyErr (List (List Char) × List SegKind))
    (textStr : List Char) (atr : List (List Char × List Char))
    (allAsText allAsIs : Bool) (tags : List (List Char)) :
    Except PyErr (List Char) :=
  if allAsText ∧ allAsIs then .error .valueError
  else
    let piecesE : Except PyErr (List (List Char) × List SegKind) :=
      if allAsText then .ok ([textStr], [.text])
      else if allAsIs then .ok ([textStr], [.tag])
      else split textStr tags
    piecesE.map fun pieces =>
      ("<p").data ++ renderAttrs atr ++ '>' :: renderPieces pieces ++ ("</p>").data

/-- The `paragraph` function itself, scanning with `spitTags`. -/
def paragraph (textStr : List Char) (atr : List (List Char × List Char))
    (allAsText allAsIs : Bool) (tags : List (List Char)) :
    Except PyErr (List Char) :=
  paragraphWith spitTags textStr atr allAsText allAsIs tags

/-! ## `heading` and `Section` (`htmlDoc.py:117-236`)

The claim-relevant behaviour of `Section` is the Python shared-default-
argument aliasing: every `Section(title)` constructed without an explicit
`atr` argument stores a reference to the one list object created for the
default parameter `atr=[]` of `Section.__init__`, and
`Section.generateHtml` mutates that list in place
(`self.atr.append(('id', self.id))`, `htmlDoc.py:194-195`).  The shared
list is modelled as explicit state of type `AtrList` threaded through
`generateHtml`; a section records whether its `atr` is the shared default
or a caller-supplied list of its own.  Section bodies (`htmlCode`,
subsections) are empty in all claim-relevant scenarios and are not
modelled. -/

/-- An attribute list: name/value pairs. -/
def AtrList : Type := List (List Char × List Char)

/-- The `heading` function (`htmlDoc.py:213-236`): `<hN ...>title</hN>`. -/
def heading (title : List Char) (level : Nat) (atr : List (List Char × List Char)) :
    List Char :=
  let tagType := 'h' :: (Nat.toDigits 10 level)
  '<' :: (tagType ++ renderAttrs atr ++ '>' :: (htmlEscape title ++ '<' :: '/' :: tagType ++ ['>']))

/-- A `Section` object: title, heading level, id, and its `atr` — either
the shared default list (constructed with no `atr` argument) or its own. -/
structure Section where
  title : List Char
  level : Nat
  id : List Char
  sharedAtr : Bool
  ownAtr : List (List Char × List Char)

/-- A section constructed as `Section(title)`: level 1, id defaulted to
the title, `atr` the shared default list (`htmlDoc.py:128-147`). -/
def mkSectionDefault (title : List Char) : Section :=
  ⟨title, 1, title, true, []⟩

/-- The attribute list a section currently sees: the shared default list's
current contents, or its own list. -/
def Section.atrNow (s : Section) (shared : AtrList) : List (List Char × List Char) :=
  if s.sharedAtr then shared else s.ownAtr

/-- The `Section.generateHtml` method (`htmlDoc.py:184-211`) with an empty
body: if no `'id'` attribute is present in `self.atr`, append
`('id', self.id)` to it — mutating the shared default list when that is
what `self.atr` refers to — then render the heading with `self.atr`.
Returns the html and the new contents of the shared default list. -/
def Section.generateHtml (s : Section) (shared : AtrList) : List Char × AtrList :=
  let atr := s.atrNow shared
  let atr' :=
    if ("id").data ∈ atr.map Prod.fst then atr else atr ++ [(("id").data, s.id)]
  let shared' := if s.sharedAtr then atr' else shared
  (("<section>").data ++ heading s.title s.level atr' ++ ("</section>").data, shared')

/-! ## Correctness of the line/column-to-offset conversion -/

theorem advance_cons (p : Nat × Nat) (c : Char) (s : List Char) :
    advance p (c :: s) = advance (stepPos p c) s := rfl

theorem advance_no_nl (p : List Char) :
    ∀ (l c : Nat), (∀ ch ∈ p, ch ≠ '\n') → advance (l, c) p = (l, c + p.length) := by
  induction p with
  | nil => intro l c _; rfl
  | cons ch p ih =>
    intro l c h
    rw [advance_cons, stepPos, if_neg (h ch (by simp))]
    rw [ih l (c + 1) (fun x hx => h x (by simp [hx]))]
    simp
    omega

theorem advance_line_shift (p : List Char) :
    ∀ (l c k : Nat), advance (l + k, c) p = ((advance (l, c) p).1 + k, (advance (l, c) p).2) := by
  induction p with
  | nil => intro l c k; rfl
  | cons ch p ih =>
    intro l c k
    rw [advance_cons, advance_cons, stepPos, stepPos]
    by_cases hch : ch = '\n'
    · rw [if_pos hch, if_pos hch]
      have : l + k + 1 = (l + 1) + k := by omega
      rw [this, ih (l + 1) 0 k]
    · rw [if_neg hch, if_neg hch]
      exact ih l (c + 1) k

theorem advance_line_ge (p : List Char) :
    ∀ (l c : Nat), l ≤ (advance (l, c) p).1 := by
  induction p with
  | nil => intro l c; exact le_refl l
  | cons ch p ih =>
    intro l c
    rw [advance_cons, stepPos]
    by_cases hch : ch = '\n'
    · rw [if_pos hch]
      exact le_trans (Nat.le_succ l) (ih (l + 1) 0)
    · rw [if_neg hch]
      exact ih l (c + 1)

theorem splitNL_ne_nil (p : List Char) : splitNL p ≠ [] := by
  cases p with
  | nil => simp [splitNL]
  | cons c rest =>
    rw [splitNL]
    split
    · simp
    · split <;> simp

theorem splitNL_append_nl (a : List Char) :
    ∀ (b : List Char), (∀ ch ∈ a, ch ≠ '\n') →
      splitNL (a ++ '\n' :: b) = a :: splitNL b := by
  induction a with
  | nil => intro b _; simp [splitNL]
  | cons c a ih =>
    intro b h
    have hc : ¬ c = '\n' := h c (by simp)
    rw [List.cons_append, splitNL, if_neg hc, ih b (fun x hx => h x (by simp [hx]))]

/-- Decompose a list at its first newline. -/
theorem split_first_nl (p : List Char) (h : '\n' ∈ p) :
    ∃ a b, p = a ++ '\n' :: b ∧ ∀ ch ∈ a, ch ≠ '\n' := by
  induction p with
  | nil => cases h
  | cons c rest ih =>
    by_cases hc : c = '\n'
    · exact ⟨[], rest, by simp [hc], by simp⟩
    · have hr : '\n' ∈ rest := by
        rcases List.mem_cons.mp h with h1 | h1
        · exact absurd h1.symm hc
        · exact h1
      obtain ⟨a, b, hab, hne⟩ := ih hr
      refine ⟨c :: a, b, by simp [hab], ?_⟩
      intro x hx
      rcases List.mem_cons.mp hx with h1 | h1
      · simpa [h1] using hc
      · exact hne x h1

theorem pyTakeL_ofNat {α : Type} (l : List α) (k : Nat) :
    pyTakeL l (k : Int) = l.take k := by
  simp [pyTakeL]

theorem advance_append (p : Nat × Nat) (s t : List Char) :
    advance p (s ++ t) = advance (advance p s) t := by
  simp [advance, List.foldl_append]

/-- Core correctness of the conversion formula of `htmlDoc.py:352-356`:
for any way of splitting the input into a consumed prefix `p` and a rest
`q`, the parser position reached after `p` is mapped by `conv` to exactly
`p.length`, the absolute character offset of the first unconsumed
character. -/
theorem conv_lcOf_aux :
    ∀ (fuel : Nat) (p q : List Char), p.length ≤ fuel →
      conv (p ++ q) ((lcOf p).1 : Int) ((lcOf p).2 : Int) = (p.length : Int) := by
  intro fuel
  induction fuel with
  | zero =>
    intro p q hfuel
    have : p = [] := List.eq_nil_of_length_eq_zero (Nat.le_zero.mp hfuel)
    subst this
    simp [conv, lcOf, advance, pyTakeL]
  | succ fuel ih =>
    intro p q hfuel
    by_cases hnl : '\n' ∈ p
    · obtain ⟨a, b, rfl, hne⟩ := split_first_nl p hnl
      -- position after the prefix: one full line `a`, then continue on `b`
      have hadv : lcOf (a ++ '\n' :: b) = ((lcOf b).1 + 1, (lcOf b).2) := by
        show advance (1, 0) (a ++ '\n' :: b) = _
        rw [advance_append, advance_no_nl a 1 0 hne, advance_cons]
        show advance (2, 0) b = _
        exact advance_line_shift b 1 0 1
      obtain ⟨lb, hlb⟩ : ∃ lb : Nat, (lcOf b).1 = lb + 1 :=
        ⟨(lcOf b).1 - 1, by
          have h := advance_line_ge b 1 0
          simp only [lcOf]
          omega⟩
      have hlenb : b.length ≤ fuel := by
        have h := hfuel
        rw [List.length_append, List.length_cons] at h
        omega
      have ihb := ih b q hlenb
      rw [hlb] at ihb
      rw [hadv, hlb]
      have hsplit : splitNL ((a ++ '\n' :: b) ++ q) = a :: splitNL (b ++ q) := by
        rw [show (a ++ '\n' :: b) ++ q = a ++ '\n' :: (b ++ q) by simp]
        exact splitNL_append_nl a (b ++ q) hne
      simp only [conv] at ihb ⊢
      have e1 : ((lb + 1 : Nat) : Int) - 1 = (lb : Int) := by push_cast; ring
      have e2 : ((lb + 1 + 1 : Nat) : Int) - 1 = ((lb + 1 : Nat) : Int) := by push_cast; ring
      rw [e1, pyTakeL_ofNat] at ihb
      rw [hsplit, e2, pyTakeL_ofNat, List.take_succ_cons]
      simp only [List.map_cons, List.sum_cons]
      push_cast at ihb ⊢
      simp only [List.length_append, List.length_cons] at *
      push_cast at ihb ⊢
      omega
    · -- no newline in the prefix: line 1, column = p.length
      have hadv : lcOf p = (1, p.length) := by
        have h := advance_no_nl p 1 0 (fun ch hch heq => hnl (heq ▸ hch))
        simpa [lcOf] using h
      rw [hadv]
      simp [conv, pyTakeL]

/-- Specialization: the conversion recovers the absolute offset of every
consumed prefix. -/
theorem conv_lcOf (p q : List Char) :
    conv (p ++ q) ((lcOf p).1 : Int) ((lcOf p).2 : Int) = (p.length : Int) :=
  conv_lcOf_aux p.length p q (le_refl _)

/-- The conversion recovers the absolute offset of any prefix of the
input presented through `take`. -/
theorem conv_take (full : List Char) (n : Nat) (h : n ≤ full.length) :
    conv full ((lcOf (full.take n)).1 : Int) ((lcOf (full.take n)).2 : Int) = (n : Int) := by
  have h2 := conv_lcOf (full.take n) (full.drop n)
  rw [List.take_append_drop] at h2
  rw [h2, List.length_take_of_le h]

theorem lcOf_snoc (done : List Char) (c : Char) :
    lcOf (done ++ [c]) = stepPos (lcOf done) c := by
  rw [lcOf, lcOf, advance_append]
  rfl

/-! ## Positions reported by the tokenizer

Every stored position in a scanner state is the parser position of some
prefix of the consumed input; consequently every reported token position
converts, through `conv`, to the absolute offset of the prefix consumed
when the token's construct began. -/

/-- Invariant of the scanner state after consuming `done`: any position
stored in the state is the parser position of the length-`n₀` prefix of
`done`. -/
def StOk (done : List Char) (st : TkState) (n₀ : Nat) : Prop :=
  n₀ ≤ done.length ∧
  match st with
  | .ground => True
  | .bogus => True
  | .inData s _ => s = lcOf (done.take n₀)
  | .seenLt l => l = lcOf (done.take n₀)
  | .seenLtSlash l => l = lcOf (done.take n₀)
  | .inStart l _ _ _ => l = lcOf (done.take n₀)
  | .inEnd l _ _ => l = lcOf (done.take n₀)

theorem StOk_current (done : List Char) (c : Char) (lc : Nat × Nat)
    (hlc : lc = lcOf done) : lc = lcOf ((done ++ [c]).take done.length) := by
  rw [List.take_append_of_le_length (le_refl _), List.take_length, hlc]

theorem StOk_keep (done : List Char) (c : Char) (lc : Nat × Nat) (n₀ : Nat)
    (hn : n₀ ≤ done.length) (hlc : lc = lcOf (done.take n₀)) :
    lc = lcOf ((done ++ [c]).take n₀) := by
  rw [List.take_append_of_le_length hn, hlc]

/-- One scanner step preserves the invariant, with a new base offset at
least the old one, and reports all its tokens at the position stored for
the current construct, the parser position of the length-`n₀` prefix. -/
theorem tkStep_spec (done : List Char) (c : Char) (st : TkState) (n₀ : Nat)
    (h : StOk done st n₀) :
    ∃ n₁, n₀ ≤ n₁ ∧ StOk (done ++ [c]) (tkStep st (lcOf done) c).1 n₁ ∧
      ∀ t ∈ (tkStep st (lcOf done) c).2, (t.line, t.col) = lcOf (done.take n₀) := by
  obtain ⟨hle, hst⟩ := h
  have hlen : done.length ≤ (done ++ [c]).length := by simp
  cases st with
  | ground =>
    simp only [tkStep]
    split
    · exact ⟨done.length, hle, ⟨hlen, StOk_current done c _ rfl⟩, by simp⟩
    · exact ⟨done.length, hle, ⟨hlen, StOk_current done c _ rfl⟩, by simp⟩
  | inData s run =>
    simp only [tkStep]
    split
    · refine ⟨done.length, hle, ⟨hlen, StOk_current done c _ rfl⟩, ?_⟩
      intro t ht
      simp at ht
      rw [ht, ← hst]
    · exact ⟨n₀, le_refl _, ⟨le_trans hle hlen, StOk_keep done c _ n₀ hle hst⟩, by simp⟩
  | seenLt l =>
    simp only [tkStep]
    split
    · exact ⟨n₀, le_refl _, ⟨le_trans hle hlen, StOk_keep done c _ n₀ hle hst⟩, by simp⟩
    · split
      · exact ⟨n₀, le_refl _, ⟨le_trans hle hlen, StOk_keep done c _ n₀ hle hst⟩, by simp⟩
      · split
        · exact ⟨n₀, le_refl _, ⟨le_trans hle hlen, trivial⟩, by simp⟩
        · split
          · refine ⟨done.length, hle, ⟨hlen, StOk_current done c _ rfl⟩, ?_⟩
            intro t ht
            simp at ht
            rw [ht, ← hst]
          · refine ⟨done.length, hle, ⟨hlen, StOk_current done c _ rfl⟩, ?_⟩
            intro t ht
            simp at ht
            rw [ht, ← hst]
  | seenLtSlash l =>
    simp only [tkStep]
    split
    · exact ⟨n₀, le_refl _, ⟨le_trans hle hlen, StOk_keep done c _ n₀ hle hst⟩, by simp⟩
    · split
      · exact ⟨n₀, le_refl _, ⟨le_trans hle hlen, trivial⟩, by simp⟩
      · exact ⟨n₀, le_refl _, ⟨le_trans hle hlen, trivial⟩, by simp⟩
  | bogus =>
    simp only [tkStep]
    split
    · exact ⟨n₀, le_refl _, ⟨le_trans hle hlen, trivial⟩, by simp⟩
    · exact ⟨n₀, le_refl _, ⟨le_trans hle hlen, trivial⟩, by simp⟩
  | inStart l name nameDone lastSlash =>
    simp only [tkStep]
    split
    · refine ⟨n₀, le_refl _, ⟨le_trans hle hlen, trivial⟩, ?_⟩
      intro t ht
      rcases List.mem_cons.mp ht with h1 | h1
      · rw [h1, ← hst]
      · split at h1
        · simp at h1
          rw [h1, ← hst]
        · simp at h1
    · split
      · exact ⟨n₀, le_refl _, ⟨le_trans hle hlen, StOk_keep done c _ n₀ hle hst⟩, by simp⟩
      · exact ⟨n₀, le_refl _, ⟨le_trans hle hlen, StOk_keep done c _ n₀ hle hst⟩, by simp⟩
  | inEnd l name nameDone =>
    simp only [tkStep]
    split
    · refine ⟨n₀, le_refl _, ⟨le_trans hle hlen, trivial⟩, ?_⟩
      intro t ht
      simp at ht
      rw [ht, ← hst]
    · split
      · exact ⟨n₀, le_refl _, ⟨le_trans hle hlen, StOk_keep done c _ n₀ hle hst⟩, by simp⟩
      · exact ⟨n₀, le_refl _, ⟨le_trans hle hlen, StOk_keep done c _ n₀ hle hst⟩, by simp⟩

/-- Glue: a block of tokens all at one position, followed by a
position-sorted list of tokens at positions at least that one, is
position-sorted. -/
theorem chain_glue (f : RawTok → Int) (E L : List RawTok) (v : Int)
    (hE : ∀ t ∈ E, f t = v) (hL : List.Chain' (fun a b => f a ≤ f b) L)
    (hge : ∀ t ∈ L, v ≤ f t) :
    List.Chain' (fun a b => f a ≤ f b) (E ++ L) := by
  induction E with
  | nil => simpa
  | cons e E ihE =>
    rw [List.cons_append, List.chain'_cons']
    refine ⟨?_, ihE (fun t ht => hE t (by simp [ht]))⟩
    intro y hy
    have hmem : y ∈ E ++ L := List.mem_of_mem_head? hy
    rw [hE e (by simp)]
    rcases List.mem_append.mp hmem with h1 | h1
    · rw [hE y (by simp [h1])]
    · exact hge y h1

/-- Every token the scanner reports is positioned at the parser position
of a prefix of the input, `conv` maps it to that prefix's length, and the
positions come out in non-decreasing converted order. -/
theorem tkRun_pos (full : List Char) :
    ∀ (rest done : List Char) (st : TkState) (n₀ : Nat),
      full = done ++ rest → StOk done st n₀ →
      (∀ t ∈ tkRun st (lcOf done) rest,
          ∃ n, n₀ ≤ n ∧ n ≤ full.length ∧ (t.line, t.col) = lcOf (full.take n)
            ∧ conv full (t.line : Int) (t.col : Int) = (n : Int))
      ∧ List.Chain' (fun a b => conv full (a.line : Int) (a.col : Int)
            ≤ conv full (b.line : Int) (b.col : Int)) (tkRun st (lcOf done) rest) := by
  intro rest
  induction rest with
  | nil =>
    intro done st n₀ hfull h
    obtain ⟨hle, hst⟩ := h
    have hdone : done = full := by simp [hfull]
    subst hdone
    cases st with
    | inData s run =>
      constructor
      · intro t ht
        simp [tkRun, tkFlush] at ht
        refine ⟨n₀, le_refl _, hle, ?_, ?_⟩
        · rw [ht]; simpa using hst
        · rw [ht]
          have hs : (s.1, s.2) = lcOf (done.take n₀) := by simpa using hst
          have h1 : s.1 = (lcOf (done.take n₀)).1 := by rw [← hs]
          have h2 : s.2 = (lcOf (done.take n₀)).2 := by rw [← hs]
          rw [h1, h2]
          exact conv_take done n₀ hle
      · simp [tkRun, tkFlush, List.chain'_singleton]
    | ground => simp [tkRun, tkFlush]
    | bogus => simp [tkRun, tkFlush]
    | seenLt l => simp [tkRun, tkFlush]
    | seenLtSlash l => simp [tkRun, tkFlush]
    | inStart l name nameDone lastSlash => simp [tkRun, tkFlush]
    | inEnd l name nameDone => simp [tkRun, tkFlush]
  | cons c rest ih =>
    intro done st n₀ hfull h
    have hle := h.1
    obtain ⟨n₁, hn01, hstok₁, hE⟩ := tkStep_spec done c st n₀ h
    have hfull' : full = (done ++ [c]) ++ rest := by simp [hfull]
    have ihr := ih (done ++ [c]) (tkStep st (lcOf done) c).1 n₁ hfull' hstok₁
    have hrun : tkRun st (lcOf done) (c :: rest) =
        (tkStep st (lcOf done) c).2 ++
          tkRun (tkStep st (lcOf done) c).1 (lcOf (done ++ [c])) rest := by
      rw [tkRun, lcOf_snoc]
    have hn₀full : n₀ ≤ full.length := by
      rw [hfull]; simp; omega
    have htakefull : done.take n₀ = full.take n₀ := by
      rw [hfull, List.take_append_of_le_length hle]
    have hEconv : ∀ t ∈ (tkStep st (lcOf done) c).2,
        (t.line, t.col) = lcOf (full.take n₀)
          ∧ conv full (t.line : Int) (t.col : Int) = (n₀ : Int) := by
      intro t ht
      have h1 := hE t ht
      rw [htakefull] at h1
      refine ⟨h1, ?_⟩
      have hl : t.line = (lcOf (full.take n₀)).1 := by rw [← h1]
      have hc2 : t.col = (lcOf (full.take n₀)).2 := by rw [← h1]
      rw [hl, hc2]
      exact conv_take full n₀ hn₀full
    rw [hrun]
    constructor
    · intro t ht
      rcases List.mem_append.mp ht with h1 | h1
      · exact ⟨n₀, le_refl _, hn₀full, (hEconv t h1).1, (hEconv t h1).2⟩
      · obtain ⟨n, ha, hb, hc2, hd⟩ := ihr.1 t h1
        exact ⟨n, le_trans hn01 ha, hb, hc2, hd⟩
    · refine chain_glue _ _ _ ((n₀ : Int)) (fun t ht => (hEconv t ht).2) ihr.2 ?_
      intro t ht
      obtain ⟨n, ha, hb, hc2, hd⟩ := ihr.1 t ht
      rw [hd]
      have : n₀ ≤ n := le_trans hn01 ha
      exact_mod_cast this

/-- Position facts for the whole token list of an input. -/
theorem tokenize_pos (text : List Char) :
    (∀ t ∈ tokenize text,
        ∃ n, n ≤ text.length ∧ (t.line, t.col) = lcOf (text.take n)
          ∧ conv text (t.line : Int) (t.col : Int) = (n : Int))
    ∧ List.Chain' (fun a b => conv text (a.line : Int) (a.col : Int)
          ≤ conv text (b.line : Int) (b.col : Int)) (tokenize text) := by
  have h := tkRun_pos text text [] .ground 0 (by simp) ⟨Nat.zero_le _, trivial⟩
  have he : lcOf ([] : List Char) = (1, 0) := rfl
  rw [he] at h
  exact ⟨fun t ht => (h.1 t ht).imp (fun n hn => ⟨hn.2.1, hn.2.2⟩), h.2⟩

/-- The converted token positions are non-decreasing. -/
theorem spitToks_sorted (text : List Char) :
    List.Chain' (fun a b => a.pos ≤ b.pos) (spitToks text) := by
  rw [spitToks, List.chain'_map]
  exact (tokenize_pos text).2

/-- Every converted token position lies inside `[0, text.length]`. -/
theorem spitToks_bounds (text : List Char) :
    ∀ t ∈ spitToks text, 0 ≤ t.pos ∧ t.pos ≤ (text.length : Int) := by
  intro t ht
  rw [spitToks] at ht
  obtain ⟨r, hr, rfl⟩ := List.mem_map.mp ht
  obtain ⟨n, hb, _, hconv⟩ := (tokenize_pos text).1 r hr
  constructor
  · show 0 ≤ conv text (r.line : Int) (r.col : Int)
    rw [hconv]
    exact_mod_cast Nat.zero_le n
  · show conv text (r.line : Int) (r.col : Int) ≤ (text.length : Int)
    rw [hconv]
    exact_mod_cast hb

/-- C6: for every token the tokenizer reports with a `(line, column)`
position, the conversion in `spitTags` computes the token's true absolute
character index in the input: `(line, col)` is the parser position
reached after consuming the prefix `text.take n` (positions advance per
character, resetting the 0-based column at each newline), and `conv`
maps it to exactly that `n`. -/
theorem C6_offset_conversion (text : List Char) (t : RawTok) (ht : t ∈ tokenize text) :
    ∃ n, n ≤ text.length ∧ (t.line, t.col) = lcOf (text.take n)
      ∧ conv text (t.line : Int) (t.col : Int) = (n : Int) :=
  (tokenize_pos text).1 t ht

/-- Witness for C6 at the start tag of `"a\nb<br>x"`, reported at line 2,
column 1. -/
theorem C6_offset_conversion_witness :
    ∃ n, n ≤ ("a\nb<br>x").data.length
      ∧ (((2 : Nat), (1 : Nat)) : Nat × Nat) = lcOf (("a\nb<br>x").data.take n)
      ∧ conv ("a\nb<br>x").data ((2 : Nat) : Int) ((1 : Nat) : Int) = (n : Int) :=
  C6_offset_conversion ("a\nb<br>x").data ⟨("br").data, 2, 1, .start⟩ (by decide)

/-! ## Invariants of the splitter loop

The loop appends segments whose spans tile the input contiguously: every
new segment begins immediately after the previous one ends (`subEndInds[-1] + 1`).
From this, ordering and disjointness of the emitted spans follow. -/

/-- The source's `subEndInds[-1]`, as a function of the emitted segments:
`-1` when no segment has been emitted (one before the start of the
string). -/
def lastE (acc : List Seg) : Int :=
  match acc.getLast? with
  | none => -1
  | some s => s.endI

/-- Invariant of the accumulated segment list: consecutive spans are
contiguous, every span is well-formed and inside the string, and every
content is the span's slice of the input. -/
def AccOk (text : List Char) (acc : List Seg) : Prop :=
  List.Chain' (fun a b => b.startI = a.endI + 1) acc
  ∧ (∀ s ∈ acc, 0 ≤ s.startI ∧ s.startI ≤ s.endI + 1 ∧ s.endI ≤ (text.length : Int) - 1)
  ∧ (∀ s ∈ acc, s.content = pySlice text s.startI (s.endI + 1))

theorem lastE_nil : lastE [] = -1 := rfl

theorem lastE_eq_none (acc : List Seg) (h : acc.getLast? = none) : lastE acc = -1 := by
  rw [lastE, h]

theorem lastE_eq_some (acc : List Seg) (s : Seg) (h : acc.getLast? = some s) :
    lastE acc = s.endI := by
  rw [lastE, h]

theorem gapStep_none (text : List Char) (pos : Int) (acc : List Seg)
    (h : acc.getLast? = none) :
    gapStep text pos acc =
      if pos > 0 then
        .ok (acc ++ [⟨pySlice text 0 pos, .text, 0, pos - 1⟩])
      else .error .indexError := by
  rw [gapStep, h]

theorem gapStep_some (text : List Char) (pos : Int) (acc : List Seg) (s : Seg)
    (h : acc.getLast? = some s) :
    gapStep text pos acc =
      if s.endI = pos - 1 then .ok acc
      else .ok (acc ++ [⟨pySlice text (s.endI + 1) pos, .text, s.endI + 1, pos - 1⟩]) := by
  rw [gapStep, h]

theorem lastE_ge (text : List Char) (acc : List Seg) (h : AccOk text acc) :
    -1 ≤ lastE acc := by
  cases hl : acc.getLast? with
  | none => rw [lastE_eq_none acc hl]
  | some s =>
    rw [lastE_eq_some acc s hl]
    have hs : s ∈ acc := List.mem_of_mem_getLast? hl
    have h1 := (h.2.1 s hs).1
    have h2 := (h.2.1 s hs).2.1
    omega

theorem lastE_le (text : List Char) (acc : List Seg) (h : AccOk text acc) :
    lastE acc ≤ (text.length : Int) - 1 := by
  cases hl : acc.getLast? with
  | none => rw [lastE_eq_none acc hl]; omega
  | some s =>
    rw [lastE_eq_some acc s hl]
    exact (h.2.1 s (List.mem_of_mem_getLast? hl)).2.2

/-- Appending one well-formed segment that starts right after the current
last span keeps the invariant. -/
theorem AccOk_append (text : List Char) (acc : List Seg) (seg : Seg)
    (h : AccOk text acc)
    (h1 : seg.startI = lastE acc + 1) (h3 : seg.startI ≤ seg.endI + 1)
    (h4 : seg.endI ≤ (text.length : Int) - 1)
    (h5 : seg.content = pySlice text seg.startI (seg.endI + 1)) :
    AccOk text (acc ++ [seg]) ∧ lastE (acc ++ [seg]) = seg.endI := by
  have h2 : 0 ≤ seg.startI := by
    have := lastE_ge text acc h
    omega
  refine ⟨⟨?_, ?_, ?_⟩, ?_⟩
  · rw [List.chain'_append]
    refine ⟨h.1, List.chain'_singleton seg, ?_⟩
    intro x hx y hy
    simp at hy
    subst hy
    rw [h1, lastE_eq_some acc x hx]
  · intro s hs
    rcases List.mem_append.mp hs with hs | hs
    · exact h.2.1 s hs
    · simp at hs
      subst hs
      exact ⟨h2, h3, h4⟩
  · intro s hs
    rcases List.mem_append.mp hs with hs | hs
    · exact h.2.2 s hs
    · simp at hs
      subst hs
      exact h5
  · rw [lastE, List.getLast?_concat]

/-- The leading/gap step preserves the invariant, and afterwards the last
emitted span always ends exactly at `pos - 1`. -/
theorem gapStep_inv (text : List Char) (pos : Int) (acc acc₁ : List Seg)
    (hacc : AccOk text acc) (hlt : lastE acc < pos)
    (hposlen : pos ≤ (text.length : Int))
    (h : gapStep text pos acc = .ok acc₁) :
    AccOk text acc₁ ∧ lastE acc₁ = pos - 1 := by
  cases hl : acc.getLast? with
  | none =>
    rw [gapStep_none text pos acc hl] at h
    have hlacc := lastE_eq_none acc hl
    by_cases hp : pos > 0
    · rw [if_pos hp] at h
      have h' : acc₁ = acc ++ [⟨pySlice text 0 pos, .text, 0, pos - 1⟩] := by
        cases h; rfl
      subst h'
      have := AccOk_append text acc ⟨pySlice text 0 pos, .text, 0, pos - 1⟩ hacc
        (by rw [hlacc]; show (0 : Int) = -1 + 1; ring)
        (by show (0 : Int) ≤ pos - 1 + 1; omega)
        (by show pos - 1 ≤ _; omega)
        (by show pySlice text 0 pos = pySlice text 0 (pos - 1 + 1); norm_num)
      exact ⟨this.1, this.2⟩
    · rw [if_neg hp] at h
      cases h
  | some s =>
    rw [gapStep_some text pos acc s hl] at h
    have hlacc := lastE_eq_some acc s hl
    by_cases he : s.endI = pos - 1
    · rw [if_pos he] at h
      cases h
      exact ⟨hacc, by omega⟩
    · rw [if_neg he] at h
      have h' : acc₁ = acc ++ [⟨pySlice text (s.endI + 1) pos, .text, s.endI + 1, pos - 1⟩] := by
        cases h; rfl
      subst h'
      have := AccOk_append text acc ⟨pySlice text (s.endI + 1) pos, .text, s.endI + 1, pos - 1⟩
        hacc (by rw [hlacc]) (by show s.endI + 1 ≤ pos - 1 + 1; omega)
        (by show pos - 1 ≤ _; omega)
        (by show pySlice text (s.endI + 1) pos = pySlice text (s.endI + 1) (pos - 1 + 1); norm_num)
      exact ⟨this.1, this.2⟩

/-- Specification of the forward scan for the matching end tag: it stops
at the first same-named end token — same-named start tags before it are
not counted — and returns the tokens after it. -/
theorem findEnd_spec (name : List Char) :
    ∀ (toks after : List Tok), findEnd name toks = some after →
      ∃ pre endTok, toks = pre ++ endTok :: after
        ∧ (∀ u ∈ pre, ¬ (u.item = name ∧ u.kind = .stop))
        ∧ endTok.item = name ∧ endTok.kind = .stop := by
  intro toks
  induction toks with
  | nil => intro after h; cases h
  | cons t rest ih =>
    intro after h
    rw [findEnd] at h
    by_cases hm : t.item = name ∧ t.kind = .stop
    · rw [if_pos hm] at h
      cases h
      exact ⟨[], t, by simp, by simp, hm.1, hm.2⟩
    · rw [if_neg hm] at h
      obtain ⟨pre, endTok, heq, hpre, he1, he2⟩ := ih after h
      refine ⟨t :: pre, endTok, by simp [heq], ?_, he1, he2⟩
      intro u hu
      rcases List.mem_cons.mp hu with hu | hu
      · subst hu; exact hm
      · exact hpre u hu

/-- End offset facts: the next-token offset is between the current tag's
offset and the end of the string, and below every remaining token. -/
theorem nextPos_facts (text : List Char) (rest : List Tok) (p : Int)
    (hple : p ≤ (text.length : Int))
    (hall : ∀ u ∈ rest, p ≤ u.pos)
    (hb : ∀ u ∈ rest, u.pos ≤ (text.length : Int))
    (hsort : List.Pairwise (fun a b => a.pos ≤ b.pos) rest) :
    p ≤ nextPos text rest ∧ nextPos text rest ≤ (text.length : Int)
      ∧ ∀ u ∈ rest, nextPos text rest ≤ u.pos := by
  cases rest with
  | nil =>
    have hnp : nextPos text [] = (text.length : Int) := rfl
    rw [hnp]
    exact ⟨hple, le_refl _, by simp⟩
  | cons v tail =>
    have hnp : nextPos text (v :: tail) = v.pos := rfl
    rw [hnp]
    refine ⟨hall v (by simp), hb v (by simp), ?_⟩
    intro u hu
    rcases List.mem_cons.mp hu with hu | hu
    · rw [hu]
    · exact (List.pairwise_cons.mp hsort).1 u hu

/-- Main invariant of the splitter loop: started on position-sorted,
in-bounds tokens lying strictly beyond the last emitted span, with a
well-formed accumulator, a successful run produces a well-formed segment
list (contiguous spans, in bounds, contents the spans' slices). -/
theorem spitLoop_inv (text : List Char) (tags : List (List Char)) :
    ∀ (fuel : Nat) (toks : List Tok) (acc res : List Seg),
      toks.length ≤ fuel →
      List.Pairwise (fun a b => a.pos ≤ b.pos) toks →
      (∀ t ∈ toks, 0 ≤ t.pos ∧ t.pos ≤ (text.length : Int)) →
      (∀ t ∈ toks, lastE acc < t.pos) →
      AccOk text acc →
      spitLoop text tags fuel toks acc = .ok res →
      AccOk text res := by
  intro fuel
  induction fuel with
  | zero =>
    intro toks acc res hlen hsort hb hgt hacc h
    have htoks : toks = [] := List.eq_nil_of_length_eq_zero (Nat.le_zero.mp hlen)
    subst htoks
    rw [spitLoop] at h
    cases h
    exact hacc
  | succ fuel ih =>
    intro toks acc res hlen hsort hb hgt hacc h
    cases toks with
    | nil =>
      rw [spitLoop] at h
      cases h
      exact hacc
    | cons t rest =>
      have hlen' : rest.length ≤ fuel := by
        rw [List.length_cons] at hlen
        omega
      have hsort' : List.Pairwise (fun a b => a.pos ≤ b.pos) rest :=
        (List.pairwise_cons.mp hsort).2
      have hheadle : ∀ u ∈ rest, t.pos ≤ u.pos := (List.pairwise_cons.mp hsort).1
      have hb' : ∀ u ∈ rest, 0 ≤ u.pos ∧ u.pos ≤ (text.length : Int) :=
        fun u hu => hb u (by simp [hu])
      have htb := hb t (by simp)
      have htgt := hgt t (by simp)
      rw [spitLoop] at h
      split at h
      · -- whitelisted start tag
        split at h
        · -- gapStep raised
          exact absurd h (by simp)
        · rename_i acc₁ hg
          have hg1 := gapStep_inv text t.pos acc acc₁ hacc htgt htb.2 hg
          split at h
          · -- self-closing: the segment spans to the next token
            obtain ⟨hnp1, hnp2, hnp3⟩ := nextPos_facts text rest t.pos htb.2 hheadle
              (fun u hu => (hb' u hu).2) hsort'
            have happ := AccOk_append text acc₁
              ⟨pySlice text t.pos (nextPos text rest), .tag, t.pos, nextPos text rest - 1⟩
              hg1.1 (by show t.pos = _; rw [hg1.2]; ring)
              (by show t.pos ≤ nextPos text rest - 1 + 1; omega)
              (by show nextPos text rest - 1 ≤ _; omega)
              (by show pySlice text t.pos (nextPos text rest) =
                    pySlice text t.pos (nextPos text rest - 1 + 1); norm_num)
            refine ih rest _ res hlen' hsort' hb' ?_ happ.1 h
            intro u hu
            rw [happ.2]
            show nextPos text rest - 1 < u.pos
            have := hnp3 u hu
            omega
          · -- ordinary tag: scan for the matching end tag
            split at h
            · -- scan ran off the end of the token list
              exact absurd h (by simp)
            · rename_i after hfind
              obtain ⟨pre, endTok, hdecomp, hpre, he1, he2⟩ :=
                findEnd_spec t.item rest after hfind
              have hsub : after.Sublist rest := by
                rw [hdecomp]
                exact (List.sublist_cons_self endTok after).trans
                  (List.sublist_append_right pre (endTok :: after))
              have hmemr : ∀ u ∈ after, u ∈ rest := fun u hu => hsub.mem hu
              have hlena : after.length ≤ fuel := by
                have : rest.length = pre.length + 1 + after.length := by
                  rw [hdecomp]; simp; omega
                omega
              have hsorta : List.Pairwise (fun a b => a.pos ≤ b.pos) after :=
                hsort'.sublist hsub
              have hba : ∀ u ∈ after, 0 ≤ u.pos ∧ u.pos ≤ (text.length : Int) :=
                fun u hu => hb' u (hmemr u hu)
              obtain ⟨hnp1, hnp2, hnp3⟩ := nextPos_facts text after t.pos htb.2
                (fun u hu => hheadle u (hmemr u hu)) (fun u hu => (hba u hu).2) hsorta
              have happ := AccOk_append text acc₁
                ⟨pySlice text t.pos (nextPos text after), .tag, t.pos, nextPos text after - 1⟩
                hg1.1 (by show t.pos = _; rw [hg1.2]; ring)
                (by show t.pos ≤ nextPos text after - 1 + 1; omega)
                (by show nextPos text after - 1 ≤ _; omega)
                (by show pySlice text t.pos (nextPos text after) =
                      pySlice text t.pos (nextPos text after - 1 + 1); norm_num)
              refine ih after _ res hlena hsorta hba ?_ happ.1 h
              intro u hu
              rw [happ.2]
              show nextPos text after - 1 < u.pos
              have := hnp3 u hu
              omega
      · -- token skipped
        exact ih rest acc res hlen' hsort' hb' (fun u hu => hgt u (by simp [hu])) hacc h

theorem addTrailing_none (text : List Char) (acc : List Seg) (h : acc.getLast? = none) :
    addTrailing text acc = acc := by
  rw [addTrailing, h]

theorem addTrailing_some (text : List Char) (acc : List Seg) (s : Seg)
    (h : acc.getLast? = some s) :
    addTrailing text acc =
      if s.endI < (text.length : Int) - 1 then
        acc ++ [⟨pySlice text (s.endI + 1) (text.length : Int), .text, s.endI + 1,
                (text.length : Int) - 1⟩]
      else acc := by
  rw [addTrailing, h]

/-- The trailing-text step preserves the invariant. -/
theorem addTrailing_inv (text : List Char) (acc : List Seg) (h : AccOk text acc) :
    AccOk text (addTrailing text acc) := by
  cases hl : acc.getLast? with
  | none => rw [addTrailing_none text acc hl]; exact h
  | some s =>
    rw [addTrailing_some text acc s hl]
    by_cases he : s.endI < (text.length : Int) - 1
    · rw [if_pos he]
      have hlacc := lastE_eq_some acc s hl
      exact (AccOk_append text acc
        ⟨pySlice text (s.endI + 1) (text.length : Int), .text, s.endI + 1,
          (text.length : Int) - 1⟩ h
        (by show s.endI + 1 = _; rw [hlacc])
        (by show s.endI + 1 ≤ (text.length : Int) - 1 + 1; omega)
        (by show (text.length : Int) - 1 ≤ _; omega)
        (by show pySlice text (s.endI + 1) (text.length : Int) =
              pySlice text (s.endI + 1) ((text.length : Int) - 1 + 1); norm_num)).1
    · rw [if_neg he]
      exact h

/-- A successful run of the splitter always yields a well-formed segment
list. -/
theorem spitTagsSegs_inv (text : List Char) (tags : List (List Char))
    (segs : List Seg) (h : spitTagsSegs text tags = .ok segs) :
    AccOk text segs := by
  rw [spitTagsSegs] at h
  cases hr : spitLoop text tags (spitToks text).length (spitToks text) [] with
  | error e => rw [hr] at h; exact absurd h (by simp [Except.map])
  | ok mid =>
    rw [hr] at h
    have hmid : segs = addTrailing text mid := by
      simp [Except.map] at h
      exact h.symm
    subst hmid
    have hpair : List.Pairwise (fun a b : Tok => a.pos ≤ b.pos) (spitToks text) := by
      haveI : IsTrans Tok (fun a b : Tok => a.pos ≤ b.pos) :=
        ⟨fun _ _ _ h1 h2 => le_trans h1 h2⟩
      exact List.chain'_iff_pairwise.mp (spitToks_sorted text)
    have hgt : ∀ t ∈ spitToks text, lastE [] < t.pos := by
      intro t ht
      rw [lastE_nil]
      have := (spitToks_bounds text t ht).1
      omega
    have hok : AccOk text [] := ⟨List.chain'_nil, by simp, by simp⟩
    exact addTrailing_inv text mid
      (spitLoop_inv text tags (spitToks text).length (spitToks text) [] mid
        (le_refl _) hpair (spitToks_bounds text) hgt hok hr)

/-! ## Ordering consequences of the invariant -/

/-- Lift the contiguity chain to any relation implied pairwise under the
per-segment facts. -/
theorem chain'_of_contig (S : Seg → Seg → Prop) (P : Seg → Prop) :
    ∀ (l : List Seg), List.Chain' (fun a b => b.startI = a.endI + 1) l →
      (∀ s ∈ l, P s) →
      (∀ a b, P a → P b → b.startI = a.endI + 1 → S a b) →
      List.Chain' S l := by
  intro l
  induction l with
  | nil => intros; exact List.chain'_nil
  | cons a rest ih =>
    intro hc hP himp
    rw [List.chain'_cons'] at hc ⊢
    obtain ⟨hhead, htail⟩ := hc
    refine ⟨?_, ih htail (fun s hs => hP s (by simp [hs])) himp⟩
    intro y hy
    exact himp a y (hP a (by simp)) (hP y (by simp [List.mem_of_mem_head? hy]))
      (hhead y hy)

/-- A lower bound on the head start propagates along the contiguity chain
to every start offset. -/
theorem le_all_starts :
    ∀ (l : List Seg) (x : Int), List.Chain' (fun a b => b.startI = a.endI + 1) l →
      (∀ s ∈ l, s.startI ≤ s.endI + 1) →
      (∀ y ∈ l.head?, x ≤ y.startI) →
      ∀ s ∈ l, x ≤ s.startI := by
  intro l
  induction l with
  | nil => intro x _ _ _ s hs; cases hs
  | cons a rest ih =>
    intro x hc hb hh s hs
    have hxa : x ≤ a.startI := hh a rfl
    rcases List.mem_cons.mp hs with hs | hs
    · rw [hs]; exact hxa
    · rw [List.chain'_cons'] at hc
      refine ih x hc.2 (fun u hu => hb u (by simp [hu])) ?_ s hs
      intro y hy
      have h1 := hc.1 y hy
      have h2 := hb a (by simp)
      omega

/-- Along the contiguity chain, distinct spans never share a character
position. -/
theorem pairwise_disjoint_of_contig :
    ∀ (l : List Seg), List.Chain' (fun a b => b.startI = a.endI + 1) l →
      (∀ s ∈ l, s.startI ≤ s.endI + 1) →
      List.Pairwise (fun a b => a.endI < b.startI) l := by
  intro l
  induction l with
  | nil => intros; exact List.Pairwise.nil
  | cons a rest ih =>
    intro hc hb
    rw [List.chain'_cons'] at hc
    rw [List.pairwise_cons]
    refine ⟨?_, ih hc.2 (fun u hu => hb u (by simp [hu]))⟩
    intro b hbm
    have := le_all_starts rest (a.endI + 1) hc.2 (fun u hu => hb u (by simp [hu]))
      (fun y hy => by rw [hc.1 y hy]) b hbm
    omega

/-- A Python slice with ordered non-negative endpoints in this order is
empty. -/
theorem pySlice_eq_nil (text : List Char) (a b : Int) (ha : 0 ≤ a) (hb : 0 ≤ b)
    (hba : b ≤ a) : pySlice text a b = [] := by
  rw [pySlice]
  apply List.drop_eq_nil_of_le
  rw [List.length_take]
  have h1 : pyClamp text.length b ≤ pyClamp text.length a := by
    rw [pyClamp, pyClamp, if_neg (by omega), if_neg (by omega)]
    have := Int.toNat_le_toNat hba
    omega
  omega

/-- A segment with non-empty content has a non-degenerate span. -/
theorem content_ne_nil_span (text : List Char) (s : Seg)
    (hc : s.content = pySlice text s.startI (s.endI + 1))
    (h0 : 0 ≤ s.startI) (h1 : s.startI ≤ s.endI + 1)
    (hne : s.content ≠ []) : s.startI ≤ s.endI := by
  by_contra hlt
  exact hne (by
    rw [hc]
    exact pySlice_eq_nil text s.startI (s.endI + 1) h0 (by omega) (by omega))

/-! ## Claim theorems: concrete evaluations -/

/-- C1: the round-trip property fails on the code.  On input `"hello"`
with an empty whitelist, `spitTags` succeeds but returns the empty
segment sequence, whose concatenated content is the empty string, not the
input: with no whitelisted tag found the loop never appends a segment and
the trailing-text step requires one to exist. -/
theorem C1_roundtrip_fails_eval :
    spitTags ("hello").data [] = .ok ([], [])
      ∧ ([] : List (List Char)).flatten ≠ ("hello").data :=
  ⟨rfl, by decide⟩

/-- C2: with a non-empty input containing no whitelisted tag, `spitTags`
returns the empty segment sequence, not a single `text` segment holding
the whole input. -/
theorem C2_no_tag_returns_empty_eval :
    spitTags ("hi there").data [("b").data] = .ok ([], [])
      ∧ (([], []) : List (List Char) × List SegKind)
          ≠ ([("hi there").data], [SegKind.text]) :=
  ⟨rfl, by decide⟩

/-- C3: an unmatched whitelisted start tag makes the code raise
`IndexError`, not a `MalformedMarkupError` (no such error exists in the
code).  On the claim's own input `"<b>oops"` the crash is the unguarded
`subEndInds[-1]` access for a tag at offset 0; on `"x<b>oops"`, which
avoids that access, the end-tag scan runs past the end of the token list
and raises `IndexError` there. -/
theorem C3_unmatched_tag_eval :
    spitTags ("<b>oops").data [("b").data] = .error .indexError
      ∧ spitTags ("x<b>oops").data [("b").data] = .error .indexError :=
  ⟨rfl, rfl⟩

/-- C7: on the claim's own input `"<br>"` with whitelist `{br}` the code
raises `IndexError` (the tag sits at offset 0 and the unguarded
`subEndInds[-1]` access fires) instead of returning one markup segment;
on `"x<br>y"`, where the crash is avoided, the self-closing rule does
span the segment from the tag's start to the next token's start. -/
theorem C7_self_closing_eval :
    spitTags ("<br>").data [("br").data] = .error .indexError
      ∧ spitTags ("x<br>y").data [("br").data] =
          .ok ([("x").data, ("<br>").data, ("y").data],
               [SegKind.text, SegKind.tag, SegKind.text]) :=
  ⟨rfl, rfl⟩

/-- C5, counterexample: on input `"x<br/>"` with whitelist `{br}` the
XHTML-style `<br/>` fires both a start and an end callback at offset 1,
so the self-closing branch emits an empty markup segment spanning
`[1, 1)` and the trailing text segment starts at offset 1 again: the
start offsets are `0, 1, 1`, not strictly increasing. -/
theorem C5_counterexample :
    spitTagsSegs ("x<br/>").data [("br").data] =
      .ok [⟨("x").data, .text, 0, 0⟩, ⟨[], .tag, 1, 0⟩, ⟨("<br/>").data, .text, 1, 5⟩]
      ∧ ¬ List.Chain' (fun a b => a.startI < b.startI)
          [(⟨("x").data, .text, 0, 0⟩ : Seg), ⟨[], .tag, 1, 0⟩,
           ⟨("<br/>").data, .text, 1, 5⟩] := by
  refine ⟨rfl, fun h => ?_⟩
  simp [List.chain'_cons] at h

/-- C4: requesting both rendering modes at once fails with the
configuration error (`raise ValueError(...)`, the spec's
`InvalidConfiguration`), whatever splitter `paragraph` would scan with —
the splitter is never invoked, as the result is the same for every
`split` function. -/
theorem C4_mode_conflict (split : List Char → List (List Char) →
      Except PyErr (List (List Char) × List SegKind))
    (textStr : List Char) (atr : List (List Char × List Char))
    (tags : List (List Char)) :
    paragraphWith split textStr atr true true tags = .error .valueError := rfl

/-- C5, amended: for every input and whitelist on which `spitTags`
returns a segment sequence, consecutive segment spans are contiguous —
each begins immediately after the previous one ends — hence start offsets
are non-decreasing and no two spans share a character position; the start
offset strictly increases after every segment with non-empty content, but
a zero-width segment (as emitted for an XHTML-style self-closed
whitelisted tag) shares its start offset with the following segment, so
strict increase does not hold in general. -/
theorem C5_amended_ordering (text : List Char) (tags : List (List Char))
    (segs : List Seg) (h : spitTagsSegs text tags = .ok segs) :
    List.Chain' (fun a b => b.startI = a.endI + 1) segs
    ∧ List.Chain' (fun a b => a.startI ≤ b.startI) segs
    ∧ List.Pairwise (fun a b => a.endI < b.startI) segs
    ∧ List.Chain' (fun a b => a.content ≠ [] → a.startI < b.startI) segs := by
  obtain ⟨hc, hb, hcon⟩ := spitTagsSegs_inv text tags segs h
  refine ⟨hc, ?_, ?_, ?_⟩
  · exact chain'_of_contig _ (fun s => s.startI ≤ s.endI + 1) segs hc
      (fun s hs => (hb s hs).2.1) (fun a b ha _ hab => by omega)
  · exact pairwise_disjoint_of_contig segs hc (fun s hs => (hb s hs).2.1)
  · refine chain'_of_contig _
      (fun s => 0 ≤ s.startI ∧ s.startI ≤ s.endI + 1
        ∧ s.content = pySlice text s.startI (s.endI + 1)) segs hc ?_ ?_
    · intro s hs
      exact ⟨(hb s hs).1, (hb s hs).2.1, hcon s hs⟩
    · intro a b ha _ hab hne
      have := content_ne_nil_span text a ha.2.2 ha.1 ha.2.1 hne
      omega

/-- Witness for C5 at `"hi <b>x</b> now"` with whitelist `{b}`. -/
theorem C5_amended_ordering_witness :
    List.Chain' (fun a b => b.startI = a.endI + 1)
      [(⟨("hi ").data, .text, 0, 2⟩ : Seg), ⟨("<b>x</b>").data, .tag, 3, 10⟩,
       ⟨(" now").data, .text, 11, 14⟩]
    ∧ List.Chain' (fun a b => a.startI ≤ b.startI)
      [(⟨("hi ").data, .text, 0, 2⟩ : Seg), ⟨("<b>x</b>").data, .tag, 3, 10⟩,
       ⟨(" now").data, .text, 11, 14⟩]
    ∧ List.Pairwise (fun a b => a.endI < b.startI)
      [(⟨("hi ").data, .text, 0, 2⟩ : Seg), ⟨("<b>x</b>").data, .tag, 3, 10⟩,
       ⟨(" now").data, .text, 11, 14⟩]
    ∧ List.Chain' (fun a b => a.content ≠ [] → a.startI < b.startI)
      [(⟨("hi ").data, .text, 0, 2⟩ : Seg), ⟨("<b>x</b>").data, .tag, 3, 10⟩,
       ⟨(" now").data, .text, 11, 14⟩] :=
  C5_amended_ordering ("hi <b>x</b> now").data [("b").data]
    [⟨("hi ").data, .text, 0, 2⟩, ⟨("<b>x</b>").data, .tag, 3, 10⟩,
     ⟨(" now").data, .text, 11, 14⟩] (by rfl)

/-- C8: a whitelisted, non-self-closing start tag at offset `t.pos` is
closed by the first subsequent end token with the same tag name — tokens
before it, same-named nested start tags included, are not counted — and
the emitted markup segment spans from `t.pos` to the start offset of the
token after that end tag, or to the end of the string if there is none;
the loop then continues after the consumed pair. -/
theorem C8_first_end_closes (text : List Char) (tags : List (List Char))
    (fuel : Nat) (t : Tok) (rest after : List Tok) (acc acc₁ : List Seg)
    (hk : t.kind = .start) (hmem : t.item ∈ tags) (hsc : t.item ∉ selfClosingTags)
    (hgap : gapStep text t.pos acc = .ok acc₁)
    (hfind : findEnd t.item rest = some after) :
    (∃ pre endTok, rest = pre ++ endTok :: after
        ∧ (∀ u ∈ pre, ¬ (u.item = t.item ∧ u.kind = .stop))
        ∧ endTok.item = t.item ∧ endTok.kind = .stop)
    ∧ spitLoop text tags (fuel + 1) (t :: rest) acc =
        spitLoop text tags fuel after
          (acc₁ ++ [⟨pySlice text t.pos (nextPos text after), .tag, t.pos,
                    nextPos text after - 1⟩]) := by
  refine ⟨findEnd_spec t.item rest after hfind, ?_⟩
  rw [spitLoop, if_pos ⟨hk, hmem⟩]
  split
  · rename_i e hge
    rw [hgap] at hge
    simp at hge
  · rename_i a hge
    rw [hgap] at hge
    cases hge
    rw [if_neg hsc]
    split
    · rename_i hfe
      rw [hfind] at hfe
      simp at hfe
    · rename_i af hfe
      rw [hfind] at hfe
      cases hfe
      rfl

/-- Witness for C8 at `"x<u>y</u>z"` with whitelist `{u}`. -/
theorem C8_first_end_closes_witness :
    (∃ pre endTok,
        [(⟨("y").data, 4, .data⟩ : Tok), ⟨("u").data, 5, .stop⟩, ⟨("z").data, 9, .data⟩]
          = pre ++ endTok :: [(⟨("z").data, 9, .data⟩ : Tok)]
        ∧ (∀ u ∈ pre, ¬ (u.item = (⟨("u").data, 1, .start⟩ : Tok).item ∧ u.kind = .stop))
        ∧ endTok.item = (⟨("u").data, 1, .start⟩ : Tok).item ∧ endTok.kind = .stop)
    ∧ spitLoop ("x<u>y</u>z").data [("u").data] (3 + 1)
        ((⟨("u").data, 1, .start⟩ : Tok) ::
          [⟨("y").data, 4, .data⟩, ⟨("u").data, 5, .stop⟩, ⟨("z").data, 9, .data⟩])
        [] =
      spitLoop ("x<u>y</u>z").data [("u").data] 3 [(⟨("z").data, 9, .data⟩ : Tok)]
        ([⟨("x").data, .text, 0, 0⟩] ++
          [⟨pySlice ("x<u>y</u>z").data (⟨("u").data, 1, .start⟩ : Tok).pos
              (nextPos ("x<u>y</u>z").data [(⟨("z").data, 9, .data⟩ : Tok)]), .tag,
            (⟨("u").data, 1, .start⟩ : Tok).pos,
            nextPos ("x<u>y</u>z").data [(⟨("z").data, 9, .data⟩ : Tok)] - 1⟩]) :=
  C8_first_end_closes ("x<u>y</u>z").data [("u").data] 3 ⟨("u").data, 1, .start⟩
    [⟨("y").data, 4, .data⟩, ⟨("u").data, 5, .stop⟩, ⟨("z").data, 9, .data⟩]
    [⟨("z").data, 9, .data⟩] [] [⟨("x").data, .text, 0, 0⟩]
    rfl (by decide) (by decide) (by rfl) (by rfl)

/-- Any lowercased character differs from an uppercase letter. -/
theorem lowerChar_ne_S (c : Char) : lowerChar c ≠ 'S' := by
  unfold lowerChar
  split <;> simp_all

/-- Tokens of tag kind carry a lowercased name. -/
theorem tkStep_item (st : TkState) (lc : Nat × Nat) (c : Char) :
    ∀ t ∈ (tkStep st lc c).2, t.kind ≠ .data → ∃ m : List Char, t.item = m.map lowerChar := by
  cases st with
  | ground =>
    simp only [tkStep]
    split <;> simp
  | inData s run =>
    simp only [tkStep]
    split
    · intro t ht hk
      simp at ht
      rw [ht] at hk
      simp at hk
    · simp
  | seenLt l =>
    simp only [tkStep]
    split
    · simp
    · split
      · simp
      · split
        · simp
        · split <;>
            (intro t ht hk
             simp at ht
             rw [ht] at hk
             simp at hk)
  | seenLtSlash l =>
    simp only [tkStep]
    split
    · simp
    · split <;> simp
  | bogus =>
    simp only [tkStep]
    split <;> simp
  | inStart l name nameDone lastSlash =>
    simp only [tkStep]
    split
    · intro t ht _
      rcases List.mem_cons.mp ht with h1 | h1
      · rw [h1]
        exact ⟨name, rfl⟩
      · split at h1
        · simp at h1
          rw [h1]
          exact ⟨name, rfl⟩
        · simp at h1
    · split <;> simp
  | inEnd l name nameDone =>
    simp only [tkStep]
    split
    · intro t ht _
      simp at ht
      rw [ht]
      exact ⟨name, rfl⟩
    · split <;> simp

theorem tkFlush_item (st : TkState) :
    ∀ t ∈ tkFlush st, t.kind ≠ .data → ∃ m : List Char, t.item = m.map lowerChar := by
  cases st <;> simp [tkFlush]

theorem tkRun_item :
    ∀ (rest : List Char) (st : TkState) (lc : Nat × Nat),
      ∀ t ∈ tkRun st lc rest, t.kind ≠ .data → ∃ m : List Char, t.item = m.map lowerChar := by
  intro rest
  induction rest with
  | nil => intro st lc; exact tkFlush_item st
  | cons c r ih =>
    intro st lc t ht hk
    rw [tkRun] at ht
    rcases List.mem_append.mp ht with h1 | h1
    · exact tkStep_item st lc c t h1 hk
    · exact ih _ _ t h1 hk

/-- C10: whitelist membership is tested against the tokenizer's
lowercased tag names.  An uppercase `<B>` matches the entry `"b"`, and
a start token's name can never equal the default `keepTags` entry
`"SVG svg"` — no tokenized name contains an uppercase `'S'` — so that
entry never matches any tag in any input. -/
theorem C10_lowercase_matching :
    spitTags ("x<B>y</B>z").data [("b").data] =
      .ok ([("x").data, ("<B>y</B>").data, ("z").data],
           [SegKind.text, SegKind.tag, SegKind.text])
    ∧ ∀ (text : List Char) (t : RawTok), t ∈ tokenize text → t.kind = .start →
        t.item ≠ ("SVG svg").data := by
  refine ⟨rfl, ?_⟩
  intro text t ht hk heq
  obtain ⟨m, hm⟩ := tkRun_item text .ground (1, 0) t ht (by rw [hk]; simp)
  have hS : 'S' ∈ t.item := by rw [heq]; decide
  rw [hm] at hS
  obtain ⟨c, _, hc⟩ := List.mem_map.mp hS
  exact lowerChar_ne_S c hc

/-- Witness for C10 at the start tag of `"x<B>y</B>z"`. -/
theorem C10_lowercase_matching_witness :
    (⟨("b").data, 1, 1, .start⟩ : RawTok).item ≠ ("SVG svg").data :=
  C10_lowercase_matching.2 ("x<B>y</B>z").data ⟨("b").data, 1, 1, .start⟩
    (by decide) rfl

/-- C9: sections constructed without an `atr` argument share the one
default attribute list.  Rendering a first default-constructed section
appends its `('id', id)` pair to the shared list; a second
default-constructed section then sees that pair in its own `atr`, skips
appending its own id, and renders its heading with the first section's id
attribute. -/
theorem C9_shared_default_atr (t1 t2 : List Char) :
    (mkSectionDefault t1).generateHtml [] =
      (("<section>").data ++ heading t1 1 [(("id").data, t1)] ++ ("</section>").data,
        [(("id").data, t1)])
      ∧ (mkSectionDefault t2).atrNow [(("id").data, t1)] = [(("id").data, t1)]
      ∧ (mkSectionDefault t2).generateHtml [(("id").data, t1)] =
          (("<section>").data ++ heading t2 1 [(("id").data, t1)] ++ ("</section>").data,
            [(("id").data, t1)]) := by
  refine ⟨rfl, rfl, ?_⟩
  rfl

end HtmlDoc
